import Mathlib

/-!
Verification of the `ukhs` boomphf C binding against its specification.

The repository under verification is a thin C-linkage wrapper
(`boomphf-sys/ffi.cpp` and the companion translation unit exporting
`mphf_new` / `mphf_lookup` / `mphf_save` / `mphf_load`) around the BooPHF
minimal perfect hash function library.  The wrapper code is embedded
directly; the wrapped engine (`boomphf::mphf`), which ships with the BooPHF
library and is not part of this repository's sources, is modelled from the
specification's design-level description (levels of gamma-sized slot
arrays, single-collision filtering, rank-indexed bitvectors, recursion on
the colliding leftover, an exact fallback table for the residual keys, and
a self-describing serialized stream).

Machine integers are modelled as `Nat`; the 64-bit key space enters through
an explicit `% 2 ^ 64` in the hash mixer.  The construction-time gamma
ratio (a C `double`, used by the library only to size the per-level slot
arrays) is modelled as a rational number, following the specification's
reading of gamma as a load-factor ratio.
-/

namespace UkhsBoomphf

/-- Modelled from the spec: the 64-bit key space of the wrapped engine. -/
def W : Nat := 2 ^ 64

/-- Modelled from the spec: the per-level probing seed, derived
deterministically from the level index and persisted with the level, as
required for reproducible lookups. -/
def seedOf (idx : Nat) : Nat := ((idx + 1) * 0x9E3779B97F4A7C15) % W

/-- Modelled from the spec: the level hash of a key combined with a level
seed (a 64-bit multiply/xor-shift mixer). -/
def hashK (seed k : Nat) : Nat :=
  let x := (k + seed) % W
  let y := (x ^^^ (x / 2 ^ 33)) * 0xFF51AFD7ED558CCD % W
  y ^^^ (y / 2 ^ 33)

/-- Slot of a key inside a level with `slots` slots. -/
def slotOf (seed slots k : Nat) : Nat := hashK seed k % slots

/-- Modelled from the spec: the slot count of a level holding `m` keys is
`m * gamma`, rounded up to an integer; at least one slot is allocated. -/
def slotCount (m : Nat) (γ : ℚ) : Nat :=
  max 1 ((m * γ.num.toNat + (γ.den - 1)) / γ.den)

/-- Number of keys of `ks` probing slot `i` of a level. -/
def countKeysAt (seed slots : Nat) (ks : List Nat) (i : Nat) : Nat :=
  ks.countP (fun k => slotOf seed slots k == i)

/-- Cut a list into chunks of `sz` elements (`fuel` bounds the recursion;
any remainder past the fuel is kept as one final chunk). -/
def chunkGo : Nat → Nat → List Nat → List (List Nat)
  | 0, _, l => [l]
  | fuel + 1, sz, l => if l.isEmpty then [] else l.take sz :: chunkGo fuel sz (l.drop sz)

/-- Modelled from the spec: the per-thread partition of the key range used
by the parallel probing pass, `t` contiguous chunks. -/
def splitChunks (t : Nat) (l : List Nat) : List (List Nat) :=
  chunkGo l.length (max 1 ((l.length + t - 1) / t)) l

/-- Modelled from the spec: the parallel probing pass over `t` worker
threads; each thread counts collisions on its own chunk of the key range
and a reduction merges the per-thread counts before the level is sealed. -/
def countKeysAtPar (t seed slots : Nat) (ks : List Nat) (i : Nat) : Nat :=
  ((splitChunks t ks).map (fun c => countKeysAt seed slots c i)).sum

/-- Modelled from the spec: the level bitvector; slot `i` is set exactly
when one single key probed it (unset / set-once / collided counter). -/
def mkBv (t seed slots : Nat) (ks : List Nat) : List Bool :=
  (List.range slots).map (fun i => countKeysAtPar t seed slots ks i == 1)

/-- Bit of a bitvector (false past the end). -/
def bitGet (bv : List Bool) (i : Nat) : Bool := bv.getD i false

/-- Rank: number of set bits strictly before position `i`. -/
def rankBv (bv : List Bool) (i : Nat) : Nat := (bv.take i).count true

/-- Population count of a bitvector. -/
def popBv (bv : List Bool) : Nat := bv.count true

/-- Modelled from the spec: one level of the recursive construction — its
slot count, its persisted probing seed and its occupied-slot bitvector. -/
structure Level where
  slots : Nat
  seed : Nat
  bitvec : List Bool
deriving DecidableEq, Repr

/-- Modelled from the spec: the maximum recursion depth guard after which
the residual keys fall back to an exact table. -/
def maxDepth : Nat := 25

/-- Modelled from the spec: the recursive level construction.  Keys whose
slot is set-once are claimed by the level; colliding keys fall through to
the next level with a fresh seed; recursion stops on an empty leftover or
on the depth guard, returning the built levels and the residual keys. -/
def buildLevels : Nat → Nat → ℚ → Nat → List Nat → List Level × List Nat
  | 0, _, _, _, ks => ([], ks)
  | fuel + 1, idx, γ, t, ks =>
    if ks.isEmpty then ([], [])
    else
      let sl := slotCount ks.length γ
      let sd := seedOf idx
      let bv := mkBv t sd sl ks
      let leftover := ks.filter (fun k => !bitGet bv (slotOf sd sl k))
      let pr := buildLevels fuel (idx + 1) γ t leftover
      (⟨sl, sd, bv⟩ :: pr.1, pr.2)

/-- Modelled from the spec: the MPHF engine — the key count, the ordered
level sequence, the exact fallback table for the residual keys, the gamma
ratio stored for diagnostics, and the two construction flags of the
wrapped constructor (construction diagnostics, not part of the lookup
contract). -/
structure Engine where
  n : Nat
  levels : List Level
  fallback : List Nat
  gamma : ℚ
  writeEach : Bool
  progress : Bool
deriving DecidableEq, Repr

/-- Total number of keys claimed by the levels. -/
def popSum (lvls : List Level) : Nat := (lvls.map (fun lv => popBv lv.bitvec)).sum

/-- Modelled from the spec: the level walk of a lookup.  At each level the
key's slot is recomputed from the persisted seed; a set bit answers with
the level offset plus the in-level rank; an unset bit falls through with
the offset advanced by the level's population count. -/
def lookupLevels : List Level → Nat → Nat → Option Nat
  | [], _, _ => none
  | lv :: rest, off, k =>
    if bitGet lv.bitvec (slotOf lv.seed lv.slots k) then
      some (off + rankBv lv.bitvec (slotOf lv.seed lv.slots k))
    else lookupLevels rest (off + popBv lv.bitvec) k

/-- Modelled from the spec: lookup — walk the levels, and consult the
exact fallback table when no level claims the key.  Lookup is total: a key
outside the training set still answers with some value in range, with no
"not found" signal. -/
def Engine.lookup (e : Engine) (k : Nat) : Nat :=
  match lookupLevels e.levels 0 k with
  | some v => v
  | none =>
    if e.fallback.indexOf k < e.fallback.length then
      popSum e.levels + e.fallback.indexOf k
    else 0

/-- Modelled from the spec: the wrapped `boomphf::mphf` constructor taking
the key count, the (already copied) key vector, the worker thread count,
the gamma ratio and the two trailing boolean flags.  Construction fails
(only) on the degenerate key count `n = 0`; allocation exhaustion is
outside the model. -/
def mphfCtor (n : Nat) (keys : List Nat) (t : Nat) (γ : ℚ) (we pr : Bool) :
    Option Engine :=
  if n = 0 then none
  else
    let p := buildLevels maxDepth 0 γ t keys
    some ⟨n, p.1, p.2, γ, we, pr⟩

/-- Modelled from the spec: the wrapped library's default values for the
two trailing boolean constructor arguments (construction diagnostics). -/
def defaultWriteEach : Bool := true

/-- Modelled from the spec: default of the progress-display flag. -/
def defaultProgress : Bool := true

/-! The C boundary.  Caller memory is a word-addressed store; the wrapper
reads the `n` cells at `input_range` into an engine-owned vector
(`vec.assign(input_range, input_range + n)`), exactly as in the source. -/

/-- Caller-side memory, one 64-bit word (or one path byte) per cell. -/
def Mem : Type := Nat → Nat

/-- The contiguous cells `[ptr, ptr + n)` of a memory, in address order:
the wrapper's `vec.assign(input_range, input_range + n)` copy and its
`std::string(path, size)` path construction both read exactly this. -/
def readCells (mem : Mem) (ptr n : Nat) : List Nat :=
  (List.range n).map (fun i => mem (ptr + i))

/-- The exported `mphf_new`: copy the `n` keys at `input_range` and invoke
the wrapped constructor with the explicit flags `false, false`. -/
def mphf_new (n : Nat) (mem : Mem) (inputRange t : Nat) (γ : ℚ) : Option Engine :=
  mphfCtor n (readCells mem inputRange n) t γ false false

/-- The exported `new_mphf` (from `boomphf-sys/ffi.cpp`): copy the `n`
keys and invoke the wrapped constructor, leaving the two trailing boolean
arguments at the wrapped library's defaults. -/
def new_mphf (n : Nat) (mem : Mem) (inputRange t : Nat) (γ : ℚ) : Option Engine :=
  mphfCtor n (readCells mem inputRange n) t γ defaultWriteEach defaultProgress

/-- The exported `mphf_lookup`: delegate to the engine's lookup. -/
def mphf_lookup (e : Engine) (elem : Nat) : Nat := e.lookup elem

/-- State-passing form of `mphf_new`, making the wrapper's effect on
caller memory explicit: the body only reads (the `vec.assign` copy), so
the store comes back as it went in. -/
def mphf_new_st (st : Mem) (n inputRange t : Nat) (γ : ℚ) :
    Option Engine × Mem :=
  (mphf_new n st inputRange t γ, st)

/-- State-passing form of `mphf_lookup`: the lookup neither reads nor
writes caller memory — it works on the engine's own copied storage. -/
def mphf_lookup_st (e : Engine) (elem : Nat) (st : Mem) : Nat × Mem :=
  (mphf_lookup e elem, st)

/-- Memory holding the spec's five-key example KeySet {10, 20, 30, 40,
50} at address 0. -/
def egMem : Mem := fun i => (i + 1) * 10

/-- The engine the wrapper constructs for the five-key example (one
thread, gamma 2); the second argument of `getD` is a never-used default. -/
def egEngine : Engine :=
  (mphf_new 5 egMem 0 1 2).getD (Engine.mk 1 [] [] 2 false false)

/-! Serialization.  `mphf_save` writes a self-describing word stream (a
magic header, N, gamma, the level records, the fallback table) to the file
named by the first `size` bytes at `path`; `mphf_load` opens that file and
rebuilds an engine after validating the header, the structural lengths and
the size-versus-N consistency of the payload.  The stream is modelled at
64-bit word granularity. -/

/-- Reader over a word stream: a parsed value plus the remaining words, or
a format failure. -/
def Rd (α : Type) : Type := List Nat → Option (α × List Nat)

/-- Read one word; fails on an exhausted (truncated) stream. -/
def rdWord : Rd Nat := fun s =>
  match s with
  | [] => none
  | x :: s1 => some (x, s1)

/-- Succeed without consuming input. -/
def rdPure {α : Type} (a : α) : Rd α := fun s => some (a, s)

/-- Signal a format failure. -/
def rdFail {α : Type} : Rd α := fun _ => none

/-- Sequence two readers. -/
def rdBind {α β : Type} (p : Rd α) (q : α → Rd β) : Rd β := fun s =>
  match p s with
  | none => none
  | some (a, s1) => q a s1

/-- Read exactly `n` words; fails if fewer remain. -/
def rdWords : Nat → Rd (List Nat)
  | 0 => rdPure []
  | n + 1 =>
    rdBind rdWord (fun x => rdBind (rdWords n) (fun xs => rdPure (x :: xs)))

/-- Read one serialized level: slot count, seed, bitvector length, then
the bits (one word per bit). -/
def rdLevel : Rd Level :=
  rdBind rdWord (fun sl =>
  rdBind rdWord (fun sd =>
  rdBind rdWord (fun bl =>
  rdBind (rdWords bl) (fun bits =>
  rdPure ⟨sl, sd, bits.map (fun w => w == 1)⟩))))

/-- Read `n` serialized levels in sequence. -/
def rdLevels : Nat → Rd (List Level)
  | 0 => rdPure []
  | n + 1 =>
    rdBind rdLevel (fun lv => rdBind (rdLevels n) (fun ls => rdPure (lv :: ls)))

/-- Magic header word opening every serialized engine. -/
def MAGIC : Nat := 0x4D504846

/-- Structural parse of a serialized engine: magic header, N, gamma
numerator and denominator, level count, the levels, fallback length, the
fallback keys.  Returns the engine and the unconsumed remainder. -/
def parseEngine : Rd Engine :=
  rdBind rdWord (fun mg =>
    if mg = MAGIC then
      rdBind rdWord (fun n =>
      rdBind rdWord (fun gn =>
      rdBind rdWord (fun gd =>
      rdBind rdWord (fun nl =>
      rdBind (rdLevels nl) (fun lvls =>
      rdBind rdWord (fun fl =>
      rdBind (rdWords fl) (fun fb =>
      rdPure ⟨n, lvls, fb, mkRat gn gd, false, false⟩)))))))
    else rdFail)

/-- Size validation of a loaded engine: the keys claimed by the levels
plus the fallback entries must match the embedded N. -/
def checkN (e : Engine) : Bool :=
  popSum e.levels + e.fallback.length == e.n

/-- Decode a serialized stream: the structural parse must consume the
whole stream and the size check must match the embedded N; anything else
is a format error. -/
def decode (s : List Nat) : Option Engine :=
  match parseEngine s with
  | some (e, []) => if checkN e then some e else none
  | _ => none

/-- Serialize one level. -/
def encodeLevel (lv : Level) : List Nat :=
  lv.slots :: lv.seed :: lv.bitvec.length
    :: lv.bitvec.map (fun b => if b then 1 else 0)

/-- Serialize an engine: magic header, N, gamma, level count, levels,
fallback length, fallback keys.  The two construction diagnostic flags are
not part of the stream. -/
def encode (e : Engine) : List Nat :=
  MAGIC :: e.n :: e.gamma.num.toNat :: e.gamma.den :: e.levels.length
    :: ((e.levels.map encodeLevel).flatten
        ++ e.fallback.length :: e.fallback)

/-- The engine as reconstructed from its own stream: same levels, same
fallback, same N; gamma renormalized from the stream, diagnostic flags at
their load-time values. -/
def eStrip (e : Engine) : Engine :=
  ⟨e.n, e.levels, e.fallback, mkRat e.gamma.num.toNat e.gamma.den, false, false⟩

/-- File system at the wrapper boundary: a map from path byte strings to
file contents. -/
def FileSys : Type := List Nat → Option (List Nat)

/-- The exported `mphf_save`: build the path from exactly the first
`psize` bytes at `path` (`std::string cpppath(path, size)`) and write the
serialized stream there. -/
def mphf_save (e : Engine) (pmem : Mem) (path psize : Nat) (fs : FileSys) :
    FileSys :=
  fun p => if p = readCells pmem path psize then some (encode e) else fs p

/-- The exported `mphf_load`: build the path the same way, open that file
and decode it; a missing file or a malformed stream is a failure. -/
def mphf_load (pmem : Mem) (path psize : Nat) (fs : FileSys) : Option Engine :=
  match fs (readCells pmem path psize) with
  | none => none
  | some s => decode s

/-- Positions of the set bits of a bitvector, in increasing order. -/
def truePositions (bv : List Bool) : List Nat :=
  (List.range bv.length).filter (fun i => bitGet bv i)

/-- The keys a level claims: those probing a set-once slot of its
bitvector. -/
def assignedOf (t sd sl : Nat) (ks : List Nat) : List Nat :=
  ks.filter (fun k => bitGet (mkBv t sd sl ks) (slotOf sd sl k))

/-- The keys falling through a level: those probing a collided slot. -/
def leftoverOf (t sd sl : Nat) (ks : List Nat) : List Nat :=
  ks.filter (fun k => !bitGet (mkBv t sd sl ks) (slotOf sd sl k))

/-- Total resolution of a key against a level list, an offset and a
residual fallback list: the level walk when it claims the key, the
fallback index past the claimed block otherwise. -/
def lookAux (lvls : List Level) (resid : List Nat) (off k : Nat) : Nat :=
  match lookupLevels lvls off k with
  | some v => v
  | none => off + popSum lvls + resid.indexOf k

/-! Basic facts about the chunked (parallel) probing pass: the per-thread
chunks of the key range reassemble to the full range, so the merged
per-thread collision counts equal the sequential counts. -/

theorem chunkGo_flatten (fuel sz : Nat) (l : List Nat) :
    (chunkGo fuel sz l).flatten = l := by
  induction fuel generalizing l with
  | zero => simp [chunkGo]
  | succ fuel ih =>
    by_cases h : l.isEmpty
    · simp [chunkGo, h]
      exact List.isEmpty_iff.mp h
    · simp [chunkGo, h, ih]

theorem splitChunks_flatten (t : Nat) (l : List Nat) :
    (splitChunks t l).flatten = l :=
  chunkGo_flatten _ _ _

theorem countKeysAtPar_eq (t seed slots : Nat) (ks : List Nat) (i : Nat) :
    countKeysAtPar t seed slots ks i = countKeysAt seed slots ks i := by
  unfold countKeysAtPar countKeysAt
  rw [← List.countP_flatten, splitChunks_flatten]

theorem mkBv_eq_seq (t seed slots : Nat) (ks : List Nat) :
    mkBv t seed slots ks
      = (List.range slots).map (fun i => countKeysAt seed slots ks i == 1) := by
  unfold mkBv
  exact List.map_congr_left (fun i _ => by rw [countKeysAtPar_eq])

theorem length_mkBv (t seed slots : Nat) (ks : List Nat) :
    (mkBv t seed slots ks).length = slots := by
  simp [mkBv]

theorem bitGet_mkBv (t seed slots : Nat) (ks : List Nat) {i : Nat} (h : i < slots) :
    bitGet (mkBv t seed slots ks) i = (countKeysAt seed slots ks i == 1) := by
  rw [mkBv_eq_seq]
  simp [bitGet, List.getD_eq_getElem?_getD, List.getElem?_range h]

/-! Rank and population count of a bitvector. -/

theorem bitGet_lt_length {bv : List Bool} {i : Nat} (h : bitGet bv i = true) :
    i < bv.length := by
  by_contra hge
  rw [bitGet, List.getD_eq_default _ _ (Nat.le_of_not_lt hge)] at h
  exact Bool.false_ne_true h

theorem rankBv_lt_popBv {bv : List Bool} {i : Nat} (h : bitGet bv i = true) :
    rankBv bv i < popBv bv := by
  have hi : i < bv.length := bitGet_lt_length h
  have hget : bv[i]? = some true := by
    have := List.getD_eq_getElem bv false hi
    rw [bitGet] at h
    rw [List.getElem?_eq_getElem hi, ← this, h]
  have htake : bv.take (i + 1) = bv.take i ++ [true] := by
    rw [List.take_succ, hget]
    rfl
  have hsplit : popBv bv = (bv.take (i + 1)).count true + (bv.drop (i + 1)).count true := by
    rw [popBv, ← List.count_append, List.take_append_drop]
  have : rankBv bv i + 1 ≤ (bv.take (i + 1)).count true := by
    rw [htake, List.count_append, rankBv]
    simp
  omega


theorem truePositions_nodup (bv : List Bool) : (truePositions bv).Nodup :=
  (List.nodup_range _).filter _

theorem mem_truePositions {bv : List Bool} {i : Nat} :
    i ∈ truePositions bv ↔ bitGet bv i = true := by
  constructor
  · intro h
    exact (List.mem_filter.mp h).2
  · intro h
    exact List.mem_filter.mpr ⟨List.mem_range.mpr (bitGet_lt_length h), h⟩

theorem bitGet_cons_zero (b : Bool) (bv : List Bool) : bitGet (b :: bv) 0 = b := rfl

theorem bitGet_cons_succ (b : Bool) (bv : List Bool) (i : Nat) :
    bitGet (b :: bv) (i + 1) = bitGet bv i := rfl

theorem rankBv_cons_succ (b : Bool) (bv : List Bool) (i : Nat) :
    rankBv (b :: bv) (i + 1) = (if b then 1 else 0) + rankBv bv i := by
  rw [rankBv, List.take_succ_cons, List.count_cons, rankBv]
  cases b <;> simp [Nat.add_comm]

theorem popBv_cons (b : Bool) (bv : List Bool) :
    popBv (b :: bv) = (if b then 1 else 0) + popBv bv := by
  rw [popBv, List.count_cons, popBv]
  cases b <;> simp [Nat.add_comm]

theorem truePositions_cons (b : Bool) (bv : List Bool) :
    truePositions (b :: bv)
      = (if b then [0] else []) ++ (truePositions bv).map (· + 1) := by
  rw [truePositions, List.length_cons, List.range_succ_eq_map]
  rw [List.filter_cons]
  rw [bitGet_cons_zero]
  have hmap : (List.range bv.length).map Nat.succ
      = (List.range bv.length).map (· + 1) := by
    exact List.map_congr_left (fun i _ => rfl)
  rw [hmap, List.filter_map, truePositions]
  have hcomp : (fun i => bitGet (b :: bv) i) ∘ (· + 1) = fun i => bitGet bv i := by
    funext i
    simp [Function.comp, bitGet_cons_succ]
  rw [hcomp]
  cases b <;> simp

theorem truePositions_map_rank (bv : List Bool) :
    (truePositions bv).map (rankBv bv) = List.range (popBv bv) := by
  induction bv with
  | nil => rfl
  | cons b bv ih =>
    rw [truePositions_cons, List.map_append, List.map_map, popBv_cons]
    have hcomp : (rankBv (b :: bv)) ∘ (· + 1) = fun i => (if b then 1 else 0) + rankBv bv i := by
      funext i
      simp [Function.comp, rankBv_cons_succ]
    rw [hcomp]
    cases b with
    | true =>
      have h1 : (truePositions bv).map (fun i => (if (true : Bool) then 1 else 0) + rankBv bv i)
          = ((truePositions bv).map (rankBv bv)).map Nat.succ := by
        rw [List.map_map]
        exact List.map_congr_left (fun i _ => by simp [Function.comp, Nat.add_comm])
      rw [h1, ih, if_pos rfl, if_pos rfl, Nat.add_comm 1 (popBv bv),
        List.range_succ_eq_map]
      rfl
    | false =>
      have h1 : (truePositions bv).map (fun i => (if (false : Bool) then 1 else 0) + rankBv bv i)
          = (truePositions bv).map (rankBv bv) := by
        exact List.map_congr_left (fun i _ => by simp)
      rw [h1, ih, if_neg Bool.false_ne_true, if_neg Bool.false_ne_true]
      simp

/-! Per-level bijection: on a duplicate-free key list, the keys claimed by
a level (those probing a set-once slot) are carried by the rank of their
slot bijectively onto `[0, popcount)` of the level bitvector. -/

theorem two_le_countP {α : Type} [DecidableEq α] {l : List α} {x y : α} {q : α → Bool}
    (hx : x ∈ l) (hy : y ∈ l) (hxy : x ≠ y) (hqx : q x = true) (hqy : q y = true) :
    2 ≤ l.countP q := by
  have hxf : x ∈ l.filter q := List.mem_filter.mpr ⟨hx, hqx⟩
  have hyf : y ∈ l.filter q := List.mem_filter.mpr ⟨hy, hqy⟩
  have hsub : ({x, y} : Finset α) ⊆ (l.filter q).toFinset := by
    intro a ha
    rcases Finset.mem_insert.mp ha with h | h
    · rw [h]
      exact List.mem_toFinset.mpr hxf
    · rw [Finset.mem_singleton.mp h]
      exact List.mem_toFinset.mpr hyf
  have h2 : 2 ≤ (l.filter q).toFinset.card := by
    rw [← Finset.card_pair hxy]
    exact Finset.card_le_card hsub
  have h3 : (l.filter q).toFinset.card ≤ (l.filter q).length :=
    (l.filter q).toFinset_card_le
  have h4 : (l.filter q).length = l.countP q := by
    rw [List.countP_eq_length_filter]
  omega


theorem slotOf_lt (sd : Nat) {sl : Nat} (hsl : 0 < sl) (k : Nat) :
    slotOf sd sl k < sl :=
  Nat.mod_lt _ hsl

theorem countKeysAt_eq_one_of_assigned (t sd : Nat) {sl : Nat} (ks : List Nat)
    (hsl : 0 < sl) {k : Nat} (hk : k ∈ assignedOf t sd sl ks) :
    countKeysAt sd sl ks (slotOf sd sl k) = 1 := by
  have h := (List.mem_filter.mp hk).2
  rw [bitGet_mkBv t sd sl ks (slotOf_lt sd hsl k)] at h
  exact beq_iff_eq.mp h

theorem assignedOf_slots_nodup (t sd : Nat) {sl : Nat} {ks : List Nat}
    (hnd : ks.Nodup) (hsl : 0 < sl) :
    ((assignedOf t sd sl ks).map (fun k => slotOf sd sl k)).Nodup := by
  apply List.Nodup.map_on _ (hnd.filter _)
  intro x hx y hy hxy
  by_contra hne
  have h1 := countKeysAt_eq_one_of_assigned t sd ks hsl hx
  have h2 : 2 ≤ ks.countP (fun k => slotOf sd sl k == slotOf sd sl x) := by
    apply two_le_countP (List.mem_filter.mp hx).1 (List.mem_filter.mp hy).1
      hne
    · simp
    · simp [hxy]
  rw [countKeysAt] at h1
  omega

theorem mem_assignedOf_slots (t sd : Nat) {sl : Nat} (ks : List Nat)
    (hsl : 0 < sl) (i : Nat) :
    i ∈ (assignedOf t sd sl ks).map (fun k => slotOf sd sl k)
      ↔ i ∈ truePositions (mkBv t sd sl ks) := by
  constructor
  · intro h
    rcases List.mem_map.mp h with ⟨k, hk, rfl⟩
    exact mem_truePositions.mpr (List.mem_filter.mp hk).2
  · intro h
    have hb := mem_truePositions.mp h
    have hi : i < sl := by
      have := bitGet_lt_length hb
      rwa [length_mkBv] at this
    rw [bitGet_mkBv t sd sl ks hi] at hb
    have h1 : countKeysAt sd sl ks i = 1 := beq_iff_eq.mp hb
    have hpos : 0 < ks.countP (fun k => slotOf sd sl k == i) := by
      rw [countKeysAt] at h1
      omega
    rcases List.countP_pos_iff.mp hpos with ⟨k, hkm, hkp⟩
    have hks : slotOf sd sl k = i := beq_iff_eq.mp hkp
    apply List.mem_map.mpr
    refine ⟨k, ?_, hks⟩
    apply List.mem_filter.mpr
    refine ⟨hkm, ?_⟩
    rw [hks, bitGet_mkBv t sd sl ks hi]
    exact hb

theorem assignedOf_rank_perm (t sd : Nat) {sl : Nat} {ks : List Nat}
    (hnd : ks.Nodup) (hsl : 0 < sl) :
    List.Perm
      ((assignedOf t sd sl ks).map
        (fun k => rankBv (mkBv t sd sl ks) (slotOf sd sl k)))
      (List.range (popBv (mkBv t sd sl ks))) := by
  have h1 : (assignedOf t sd sl ks).map
        (fun k => rankBv (mkBv t sd sl ks) (slotOf sd sl k))
      = ((assignedOf t sd sl ks).map (fun k => slotOf sd sl k)).map
          (rankBv (mkBv t sd sl ks)) := by
    rw [List.map_map]
    rfl
  rw [h1]
  have hperm : List.Perm ((assignedOf t sd sl ks).map (fun k => slotOf sd sl k))
      (truePositions (mkBv t sd sl ks)) := by
    rw [List.perm_ext_iff_of_nodup (assignedOf_slots_nodup t sd hnd hsl)
      (truePositions_nodup _)]
    exact fun i => mem_assignedOf_slots t sd ks hsl i
  have h2 := hperm.map (rankBv (mkBv t sd sl ks))
  rwa [truePositions_map_rank] at h2

theorem assignedOf_length (t sd : Nat) {sl : Nat} {ks : List Nat}
    (hnd : ks.Nodup) (hsl : 0 < sl) :
    (assignedOf t sd sl ks).length = popBv (mkBv t sd sl ks) := by
  have h := (assignedOf_rank_perm t sd hnd hsl).length_eq
  simpa using h

/-! The level recursion: every key of a duplicate-free key list is claimed
by exactly one level (or by the fallback table), and the union of the
per-level rank offsets plus the fallback indices covers `[0, N)` with no
two keys mapping to the same integer. -/


theorem slotCount_pos (m : Nat) (γ : ℚ) : 0 < slotCount m γ :=
  Nat.lt_of_lt_of_le Nat.one_pos (le_max_left 1 _)

theorem buildLevels_zero (idx : Nat) (γ : ℚ) (t : Nat) (ks : List Nat) :
    buildLevels 0 idx γ t ks = ([], ks) := rfl

theorem buildLevels_succ (fuel idx : Nat) (γ : ℚ) (t : Nat) (ks : List Nat)
    (h : ¬ks.isEmpty) :
    buildLevels (fuel + 1) idx γ t ks =
      (⟨slotCount ks.length γ, seedOf idx,
          mkBv t (seedOf idx) (slotCount ks.length γ) ks⟩ ::
        (buildLevels fuel (idx + 1) γ t
          (leftoverOf t (seedOf idx) (slotCount ks.length γ) ks)).1,
       (buildLevels fuel (idx + 1) γ t
          (leftoverOf t (seedOf idx) (slotCount ks.length γ) ks)).2) := by
  simp [buildLevels, h, leftoverOf]

theorem popSum_nil : popSum [] = 0 := rfl

theorem popSum_cons (lv : Level) (rest : List Level) :
    popSum (lv :: rest) = popBv lv.bitvec + popSum rest := by
  simp [popSum]


theorem lookAux_nil (resid : List Nat) (off k : Nat) :
    lookAux [] resid off k = off + resid.indexOf k := by
  simp [lookAux, lookupLevels, popSum_nil]

theorem lookAux_cons_hit {lv : Level} {rest : List Level} {resid : List Nat}
    {off k : Nat} (h : bitGet lv.bitvec (slotOf lv.seed lv.slots k) = true) :
    lookAux (lv :: rest) resid off k
      = off + rankBv lv.bitvec (slotOf lv.seed lv.slots k) := by
  simp [lookAux, lookupLevels, h]

theorem lookAux_cons_miss {lv : Level} {rest : List Level} {resid : List Nat}
    {off k : Nat} (h : bitGet lv.bitvec (slotOf lv.seed lv.slots k) = false) :
    lookAux (lv :: rest) resid off k
      = lookAux rest resid (off + popBv lv.bitvec) k := by
  simp only [lookAux, lookupLevels, h, Bool.false_eq_true, if_false]
  cases hp : lookupLevels rest (off + popBv lv.bitvec) k with
  | some v => rfl
  | none =>
    show off + popSum (lv :: rest) + resid.indexOf k
      = off + popBv lv.bitvec + popSum rest + resid.indexOf k
    rw [popSum_cons]
    omega

/-- Duplicate-free lists index themselves: mapping each element to its own
index lists out `[0, length)` in order. -/
theorem map_indexOf_eq_range {ks : List Nat} (h : ks.Nodup) :
    ks.map (fun k => ks.indexOf k) = List.range ks.length := by
  induction ks with
  | nil => rfl
  | cons a l ih =>
    have hnd := List.nodup_cons.mp h
    rw [List.map_cons, List.indexOf_cons_self, List.length_cons,
      List.range_succ_eq_map]
    have h1 : l.map (fun k => (a :: l).indexOf k)
        = l.map (fun k => (l.indexOf k).succ) := by
      apply List.map_congr_left
      intro k hk
      exact List.indexOf_cons_ne l (fun he => hnd.1 (he ▸ hk))
    rw [h1]
    have h2 : l.map (fun k => (l.indexOf k).succ)
        = (l.map (fun k => l.indexOf k)).map Nat.succ := by
      rw [List.map_map]
      rfl
    rw [h2, ih hnd.2]

/-- Main permutation lemma: resolving every key of a duplicate-free key
list through the levels and residual list built for it enumerates exactly
the integer block `[off, off + length)`. -/
theorem buildLevels_lookAux_perm :
    ∀ (fuel idx : Nat) (γ : ℚ) (t off : Nat) (ks : List Nat), ks.Nodup →
      List.Perm
        (ks.map (fun k =>
          lookAux (buildLevels fuel idx γ t ks).1 (buildLevels fuel idx γ t ks).2 off k))
        (List.range' off ks.length) := by
  intro fuel
  induction fuel with
  | zero =>
    intro idx γ t off ks hnd
    rw [buildLevels_zero]
    have h1 : ks.map (fun k => lookAux [] ks off k)
        = ks.map (fun k => off + ks.indexOf k) :=
      List.map_congr_left (fun k _ => lookAux_nil ks off k)
    have h2 : ks.map (fun k => off + ks.indexOf k)
        = (ks.map (fun k => ks.indexOf k)).map (fun i => off + i) := by
      rw [List.map_map]
      rfl
    rw [h1, h2, map_indexOf_eq_range hnd, List.range_eq_range']
    rw [show (fun i => off + i) = (off + ·) from rfl, List.map_add_range']
    exact List.Perm.refl _
  | succ fuel ih =>
    intro idx γ t off ks hnd
    by_cases hks : ks.isEmpty
    · rw [List.isEmpty_iff.mp hks]
      simp [buildLevels]
    · rw [buildLevels_succ fuel idx γ t ks hks]
      set sl := slotCount ks.length γ with hsldef
      set sd := seedOf idx with hsddef
      set bv := mkBv t sd sl ks with hbvdef
      set lo := leftoverOf t sd sl ks with hlodef
      set pr := buildLevels fuel (idx + 1) γ t lo with hprdef
      have hsl : 0 < sl := slotCount_pos ks.length γ
      have hp0 : List.Perm ks
          (ks.filter (fun k => bitGet bv (slotOf sd sl k))
            ++ ks.filter (fun k => !bitGet bv (slotOf sd sl k))) :=
        (List.filter_append_perm _ ks).symm
      have hstep := hp0.map (fun k => lookAux (⟨sl, sd, bv⟩ :: pr.1) pr.2 off k)
      rw [List.map_append] at hstep
      refine hstep.trans ?_
      have hhit : (ks.filter (fun k => bitGet bv (slotOf sd sl k))).map
            (fun k => lookAux (⟨sl, sd, bv⟩ :: pr.1) pr.2 off k)
          = (ks.filter (fun k => bitGet bv (slotOf sd sl k))).map
            (fun k => off + rankBv bv (slotOf sd sl k)) :=
        List.map_congr_left (fun k hk => lookAux_cons_hit (List.mem_filter.mp hk).2)
      have hmiss : (ks.filter (fun k => !bitGet bv (slotOf sd sl k))).map
            (fun k => lookAux (⟨sl, sd, bv⟩ :: pr.1) pr.2 off k)
          = (ks.filter (fun k => !bitGet bv (slotOf sd sl k))).map
            (fun k => lookAux pr.1 pr.2 (off + popBv bv) k) := by
        apply List.map_congr_left
        intro k hk
        have hf := (List.mem_filter.mp hk).2
        exact lookAux_cons_miss (by simpa using hf)
      rw [hhit, hmiss]
      have ha : List.Perm
          ((ks.filter (fun k => bitGet bv (slotOf sd sl k))).map
            (fun k => off + rankBv bv (slotOf sd sl k)))
          (List.range' off (popBv bv)) := by
        have h1 : (ks.filter (fun k => bitGet bv (slotOf sd sl k))).map
              (fun k => off + rankBv bv (slotOf sd sl k))
            = ((assignedOf t sd sl ks).map (fun k => rankBv bv (slotOf sd sl k))).map
              (off + ·) := by
          rw [List.map_map]
          rfl
        rw [h1]
        have h2 := (assignedOf_rank_perm t sd hnd hsl).map (off + ·)
        rw [← hbvdef] at h2
        rw [List.range_eq_range', List.map_add_range'] at h2
        simpa using h2
      have hlnd : lo.Nodup := hnd.filter _
      have hb := ih (idx + 1) γ t (off + popBv bv) lo hlnd
      have hmeq : lo = ks.filter (fun k => !bitGet bv (slotOf sd sl k)) := rfl
      rw [← hmeq]
      have happ := ha.append hb
      refine happ.trans ?_
      have heq : List.range' off (popBv bv) ++ List.range' (off + popBv bv) lo.length
          = List.range' off ks.length := by
        rw [List.range'_append_1]
        have hfl := (List.filter_append_perm
          (fun k => bitGet bv (slotOf sd sl k)) ks).length_eq
        rw [List.length_append] at hfl
        have hal : (ks.filter (fun k => bitGet bv (slotOf sd sl k))).length = popBv bv := by
          have := assignedOf_length t sd hnd hsl
          rw [← hbvdef] at this
          exact this
        have : lo.length + popBv bv = ks.length := by
          rw [hmeq]
          omega
        rw [this]
      rw [heq]


theorem mem_resid_of_lookupLevels_none :
    ∀ (fuel idx : Nat) (γ : ℚ) (t : Nat) (ks : List Nat) (k off : Nat), k ∈ ks →
      lookupLevels (buildLevels fuel idx γ t ks).1 off k = none →
      k ∈ (buildLevels fuel idx γ t ks).2 := by
  intro fuel
  induction fuel with
  | zero =>
    intro idx γ t ks k off hk _
    simpa [buildLevels_zero] using hk
  | succ fuel ih =>
    intro idx γ t ks k off hk hnone
    by_cases hks : ks.isEmpty
    · rw [List.isEmpty_iff.mp hks] at hk
      exact absurd hk (List.not_mem_nil k)
    · rw [buildLevels_succ fuel idx γ t ks hks] at hnone ⊢
      set sl := slotCount ks.length γ with hsldef
      set sd := seedOf idx with hsddef
      set bv := mkBv t sd sl ks with hbvdef
      set lo := leftoverOf t sd sl ks with hlodef
      by_cases hb : bitGet bv (slotOf sd sl k) = true
      · exfalso
        simp [lookupLevels, hb] at hnone
      · have hb' : bitGet bv (slotOf sd sl k) = false := by
          simpa using hb
        have hstep : lookupLevels (buildLevels fuel (idx + 1) γ t lo).1
            (off + popBv bv) k = none := by
          simpa [lookupLevels, hb'] using hnone
        have hmem : k ∈ lo := List.mem_filter.mpr ⟨hk, by simp [hb']⟩
        exact ih (idx + 1) γ t lo k (off + popBv bv) hmem hstep

theorem popSum_buildLevels :
    ∀ (fuel idx : Nat) (γ : ℚ) (t : Nat) (ks : List Nat), ks.Nodup →
      popSum (buildLevels fuel idx γ t ks).1
          + (buildLevels fuel idx γ t ks).2.length
        = ks.length := by
  intro fuel
  induction fuel with
  | zero =>
    intro idx γ t ks _
    simp [buildLevels_zero, popSum_nil]
  | succ fuel ih =>
    intro idx γ t ks hnd
    by_cases hks : ks.isEmpty
    · rw [List.isEmpty_iff.mp hks]
      simp [buildLevels, popSum_nil]
    · rw [buildLevels_succ fuel idx γ t ks hks]
      dsimp only
      set sl := slotCount ks.length γ with hsldef
      set sd := seedOf idx with hsddef
      set bv := mkBv t sd sl ks with hbvdef
      set lo := leftoverOf t sd sl ks with hlodef
      have hsl : 0 < sl := slotCount_pos ks.length γ
      rw [popSum_cons]
      dsimp only
      have hrec := ih (idx + 1) γ t lo (hnd.filter _)
      have hal : (assignedOf t sd sl ks).length = popBv bv := by
        have h := assignedOf_length t sd hnd hsl
        rw [← hbvdef] at h
        exact h
      have hfl := (List.filter_append_perm
        (fun k => bitGet bv (slotOf sd sl k)) ks).length_eq
      rw [List.length_append] at hfl
      have hleq : (assignedOf t sd sl ks).length + lo.length = ks.length := hfl
      omega

theorem lookupLevels_lt_of_some :
    ∀ (lvls : List Level) (off k v : Nat), lookupLevels lvls off k = some v →
      v < off + popSum lvls := by
  intro lvls
  induction lvls with
  | nil =>
    intro off k v h
    simp [lookupLevels] at h
  | cons lv rest ih =>
    intro off k v h
    by_cases hb : bitGet lv.bitvec (slotOf lv.seed lv.slots k) = true
    · simp only [lookupLevels, hb, if_true] at h
      have hv := Option.some.inj h
      have hlt := rankBv_lt_popBv hb
      rw [popSum_cons]
      omega
    · have hb' : bitGet lv.bitvec (slotOf lv.seed lv.slots k) = false := by
        simpa using hb
      simp only [lookupLevels, hb', Bool.false_eq_true, if_false] at h
      have := ih (off + popBv lv.bitvec) k v h
      rw [popSum_cons]
      omega

theorem Engine.lookup_eq_lookAux {e : Engine} {k : Nat}
    (hmem : lookupLevels e.levels 0 k = none → k ∈ e.fallback) :
    e.lookup k = lookAux e.levels e.fallback 0 k := by
  unfold Engine.lookup lookAux
  cases h : lookupLevels e.levels 0 k with
  | some v => rfl
  | none =>
    have hk := hmem h
    have hidx : e.fallback.indexOf k < e.fallback.length :=
      List.indexOf_lt_length.mpr hk
    show (if e.fallback.indexOf k < e.fallback.length then
        popSum e.levels + e.fallback.indexOf k else 0)
      = 0 + popSum e.levels + e.fallback.indexOf k
    rw [if_pos hidx]
    omega

theorem mphfCtor_eq_some {n : Nat} (keys : List Nat) (t : Nat) (γ : ℚ)
    (we pr : Bool) (hn : n ≠ 0) :
    mphfCtor n keys t γ we pr
      = some ⟨n, (buildLevels maxDepth 0 γ t keys).1,
          (buildLevels maxDepth 0 γ t keys).2, γ, we, pr⟩ := by
  simp [mphfCtor, hn]

/-- Core bijectivity: a successfully constructed engine sends its
duplicate-free training keys onto a permutation of `[0, n)`. -/
theorem mphfCtor_lookup_perm {n : Nat} {keys : List Nat} (t : Nat) (γ : ℚ)
    (we pr : Bool) (hn : n ≠ 0) (hnd : keys.Nodup) (hlen : keys.length = n) :
    ∃ e, mphfCtor n keys t γ we pr = some e ∧
      List.Perm (keys.map e.lookup) (List.range n) := by
  refine ⟨_, mphfCtor_eq_some keys t γ we pr hn, ?_⟩
  have hcong : keys.map (Engine.lookup
        ⟨n, (buildLevels maxDepth 0 γ t keys).1,
          (buildLevels maxDepth 0 γ t keys).2, γ, we, pr⟩)
      = keys.map (fun k =>
          lookAux (buildLevels maxDepth 0 γ t keys).1
            (buildLevels maxDepth 0 γ t keys).2 0 k) := by
    apply List.map_congr_left
    intro k hk
    exact Engine.lookup_eq_lookAux
      (fun hnone => mem_resid_of_lookupLevels_none maxDepth 0 γ t keys k 0 hk hnone)
  rw [hcong, ← hlen, List.range_eq_range']
  exact buildLevels_lookAux_perm maxDepth 0 γ t 0 keys hnd

/-- Size invariant of a constructed engine: the level popcounts plus the
fallback size account for every training key. -/
theorem mphfCtor_invariant {n : Nat} {keys : List Nat} {t : Nat} {γ : ℚ}
    {we pr : Bool} {e : Engine} (hn : n ≠ 0) (hnd : keys.Nodup)
    (he : mphfCtor n keys t γ we pr = some e) :
    popSum e.levels + e.fallback.length = keys.length := by
  rw [mphfCtor_eq_some keys t γ we pr hn] at he
  have h := Option.some.inj he
  subst h
  exact popSum_buildLevels maxDepth 0 γ t keys hnd

/-- Range bound: lookup on a constructed engine answers below `n` for
every key whatsoever, in-set or not. -/
theorem mphfCtor_lookup_lt {n : Nat} {keys : List Nat} {t : Nat} {γ : ℚ}
    {we pr : Bool} {e : Engine} (hn : n ≠ 0) (hnd : keys.Nodup)
    (hlen : keys.length = n) (he : mphfCtor n keys t γ we pr = some e)
    (k : Nat) :
    e.lookup k < n := by
  have hinv := mphfCtor_invariant hn hnd he
  have hpos : 0 < n := Nat.pos_of_ne_zero hn
  unfold Engine.lookup
  cases h : lookupLevels e.levels 0 k with
  | some v =>
    show v < n
    have := lookupLevels_lt_of_some e.levels 0 k v h
    omega
  | none =>
    show (if e.fallback.indexOf k < e.fallback.length then
        popSum e.levels + e.fallback.indexOf k else 0) < n
    by_cases hidx : e.fallback.indexOf k < e.fallback.length
    · rw [if_pos hidx]
      omega
    · rw [if_neg hidx]
      omega

theorem leftoverOf_thread_eq (t1 t2 sd sl : Nat) (ks : List Nat) :
    leftoverOf t1 sd sl ks = leftoverOf t2 sd sl ks := by
  unfold leftoverOf
  rw [mkBv_eq_seq, mkBv_eq_seq]

/-- The worker thread count does not influence the built structure: the
chunked per-thread probe counts merge to the sequential counts. -/
theorem buildLevels_thread_eq :
    ∀ (fuel idx : Nat) (γ : ℚ) (t1 t2 : Nat) (ks : List Nat),
      buildLevels fuel idx γ t1 ks = buildLevels fuel idx γ t2 ks := by
  intro fuel
  induction fuel with
  | zero =>
    intro idx γ t1 t2 ks
    rfl
  | succ fuel ih =>
    intro idx γ t1 t2 ks
    by_cases hks : ks.isEmpty
    · simp [buildLevels, hks]
    · rw [buildLevels_succ fuel idx γ t1 ks hks, buildLevels_succ fuel idx γ t2 ks hks]
      rw [leftoverOf_thread_eq t1 t2 (seedOf idx) (slotCount ks.length γ) ks]
      rw [mkBv_eq_seq t1, mkBv_eq_seq t2]
      rw [ih (idx + 1) γ t1 t2 (leftoverOf t2 (seedOf idx) (slotCount ks.length γ) ks)]

/-! Serialization lemmas.  First, readers are insensitive to words beyond
what they consume: a successful parse of a stream stays successful, with
the same value, when more words are appended.  Second, encoding then
parsing is the identity up to the non-serialized diagnostic fields. -/

theorem rdWord_ext :
    ∀ (a b : List Nat) (x : Nat) (r : List Nat), rdWord a = some (x, r) →
      rdWord (a ++ b) = some (x, r ++ b) := by
  intro a b x r h
  cases a with
  | nil => simp [rdWord] at h
  | cons y ys =>
    simp [rdWord] at h
    obtain ⟨rfl, rfl⟩ := h
    rfl

theorem rdPure_ext {α : Type} (v : α) :
    ∀ (a b : List Nat) (x : α) (r : List Nat), rdPure v a = some (x, r) →
      rdPure v (a ++ b) = some (x, r ++ b) := by
  intro a b x r h
  simp [rdPure] at h
  obtain ⟨rfl, rfl⟩ := h
  rfl

theorem rdFail_ext {α : Type} :
    ∀ (a b : List Nat) (x : α) (r : List Nat), rdFail a = some (x, r) →
      rdFail (a ++ b) = some (x, r ++ b) := by
  intro a b x r h
  simp [rdFail] at h

theorem rdBind_ext {α β : Type} {p : Rd α} {q : α → Rd β}
    (hp : ∀ (a b : List Nat) (x : α) (r : List Nat), p a = some (x, r) →
      p (a ++ b) = some (x, r ++ b))
    (hq : ∀ (x : α) (a b : List Nat) (y : β) (r : List Nat), q x a = some (y, r) →
      q x (a ++ b) = some (y, r ++ b)) :
    ∀ (a b : List Nat) (y : β) (r : List Nat), rdBind p q a = some (y, r) →
      rdBind p q (a ++ b) = some (y, r ++ b) := by
  intro a b y r h
  unfold rdBind at h ⊢
  cases hp0 : p a with
  | none =>
    rw [hp0] at h
    simp at h
  | some ar =>
    obtain ⟨x, s1⟩ := ar
    rw [hp0] at h
    rw [hp a b x s1 hp0]
    exact hq x s1 b y r h

theorem rdWords_ext :
    ∀ (n : Nat) (a b : List Nat) (x : List Nat) (r : List Nat),
      rdWords n a = some (x, r) → rdWords n (a ++ b) = some (x, r ++ b) := by
  intro n
  induction n with
  | zero => exact rdPure_ext []
  | succ n ih =>
    exact rdBind_ext rdWord_ext
      (fun x => rdBind_ext ih (fun xs => rdPure_ext (x :: xs)))

theorem rdLevel_ext :
    ∀ (a b : List Nat) (x : Level) (r : List Nat), rdLevel a = some (x, r) →
      rdLevel (a ++ b) = some (x, r ++ b) := by
  exact rdBind_ext rdWord_ext (fun sl =>
    rdBind_ext rdWord_ext (fun sd =>
    rdBind_ext rdWord_ext (fun bl =>
    rdBind_ext (rdWords_ext bl) (fun bits =>
    rdPure_ext (Level.mk sl sd (bits.map (fun w => w == 1)))))))

theorem rdLevels_ext :
    ∀ (n : Nat) (a b : List Nat) (x : List Level) (r : List Nat),
      rdLevels n a = some (x, r) → rdLevels n (a ++ b) = some (x, r ++ b) := by
  intro n
  induction n with
  | zero => exact rdPure_ext []
  | succ n ih =>
    exact rdBind_ext rdLevel_ext
      (fun lv => rdBind_ext ih (fun ls => rdPure_ext (lv :: ls)))

theorem parseEngine_ext :
    ∀ (a b : List Nat) (x : Engine) (r : List Nat), parseEngine a = some (x, r) →
      parseEngine (a ++ b) = some (x, r ++ b) := by
  apply rdBind_ext rdWord_ext
  intro mg
  by_cases hmg : mg = MAGIC
  · rw [if_pos hmg]
    exact rdBind_ext rdWord_ext (fun n =>
      rdBind_ext rdWord_ext (fun gn =>
      rdBind_ext rdWord_ext (fun gd =>
      rdBind_ext rdWord_ext (fun nl =>
      rdBind_ext (rdLevels_ext nl) (fun lvls =>
      rdBind_ext rdWord_ext (fun fl =>
      rdBind_ext (rdWords_ext fl) (fun fb =>
      rdPure_ext (Engine.mk n lvls fb (mkRat gn gd) false false))))))))
  · rw [if_neg hmg]
    exact rdFail_ext

theorem rdWord_cons (x : Nat) (s : List Nat) : rdWord (x :: s) = some (x, s) := rfl

theorem rdWords_run :
    ∀ (xs s : List Nat), rdWords xs.length (xs ++ s) = some (xs, s) := by
  intro xs
  induction xs with
  | nil => intro s; rfl
  | cons x xs ih =>
    intro s
    show rdBind rdWord (fun y => rdBind (rdWords xs.length) (fun ys => rdPure (y :: ys)))
        ((x :: xs) ++ s) = some (x :: xs, s)
    rw [List.cons_append]
    unfold rdBind
    rw [rdWord_cons]
    dsimp only
    rw [ih s]
    rfl

theorem rdLevel_run (lv : Level) (s : List Nat) :
    rdLevel (encodeLevel lv ++ s) = some (lv, s) := by
  have hbits : (lv.bitvec.map (fun b => if b then 1 else 0)).map (fun w => w == 1)
      = lv.bitvec := by
    rw [List.map_map]
    have hcomp : ((fun w => w == 1) ∘ fun b : Bool => if b then 1 else 0) = id := by
      funext b
      cases b <;> rfl
    rw [hcomp, List.map_id]
  have hlen : (lv.bitvec.map (fun b => if b then 1 else 0)).length
      = lv.bitvec.length := by simp
  unfold rdLevel encodeLevel rdBind
  rw [List.cons_append, List.cons_append, List.cons_append]
  rw [rdWord_cons]
  dsimp only
  rw [rdWord_cons]
  dsimp only
  rw [rdWord_cons]
  dsimp only
  rw [← hlen, rdWords_run]
  dsimp only
  rw [hbits]
  rfl

theorem rdLevels_run :
    ∀ (lvls : List Level) (s : List Nat),
      rdLevels lvls.length ((lvls.map encodeLevel).flatten ++ s) = some (lvls, s) := by
  intro lvls
  induction lvls with
  | nil => intro s; rfl
  | cons lv rest ih =>
    intro s
    show rdBind rdLevel (fun l => rdBind (rdLevels rest.length) (fun ls => rdPure (l :: ls)))
        (((lv :: rest).map encodeLevel).flatten ++ s) = some (lv :: rest, s)
    rw [List.map_cons, List.flatten_cons, List.append_assoc]
    unfold rdBind
    rw [rdLevel_run]
    dsimp only
    rw [ih s]
    rfl

theorem parseEngine_run (e : Engine) (s : List Nat) :
    parseEngine (encode e ++ s) = some (eStrip e, s) := by
  unfold parseEngine encode rdBind
  rw [List.cons_append, List.cons_append, List.cons_append, List.cons_append,
    List.cons_append]
  rw [rdWord_cons]
  dsimp only
  rw [if_pos rfl]
  rw [rdWord_cons]
  dsimp only
  rw [rdWord_cons]
  dsimp only
  rw [rdWord_cons]
  dsimp only
  rw [rdWord_cons]
  dsimp only
  rw [List.append_assoc, List.cons_append]
  rw [rdLevels_run]
  dsimp only
  rw [rdWord_cons]
  dsimp only
  rw [rdWords_run]
  rfl

theorem lookup_eStrip (e : Engine) (k : Nat) :
    (eStrip e).lookup k = e.lookup k := rfl

theorem checkN_eStrip (e : Engine) : checkN (eStrip e) = checkN e := rfl

theorem decode_encode {e : Engine}
    (hinv : popSum e.levels + e.fallback.length = e.n) :
    decode (encode e) = some (eStrip e) := by
  unfold decode
  have h := parseEngine_run e []
  rw [List.append_nil] at h
  rw [h]
  have hchk : checkN (eStrip e) = true := by
    rw [checkN_eStrip]
    unfold checkN
    exact beq_iff_eq.mpr hinv
  show (if checkN (eStrip e) then some (eStrip e) else none) = some (eStrip e)
  rw [if_pos hchk]

theorem decode_some_parse {s : List Nat} {e : Engine} (h : decode s = some e) :
    parseEngine s = some (e, []) := by
  unfold decode at h
  cases hh : parseEngine s with
  | none =>
    rw [hh] at h
    simp at h
  | some pr =>
    obtain ⟨e2, rest⟩ := pr
    rw [hh] at h
    cases rest with
    | nil =>
      have h3 : (if checkN e2 then some e2 else none) = some e := h
      by_cases hc : checkN e2 = true
      · rw [if_pos hc] at h3
        rw [Option.some.inj h3]
      · rw [if_neg hc] at h3
        simp at h3
    | cons a tl =>
      simp at h

theorem decode_checkN {s : List Nat} {e : Engine} (h : decode s = some e) :
    popSum e.levels + e.fallback.length = e.n := by
  unfold decode at h
  cases hh : parseEngine s with
  | none =>
    rw [hh] at h
    simp at h
  | some pr =>
    obtain ⟨e2, rest⟩ := pr
    rw [hh] at h
    cases rest with
    | nil =>
      by_cases hc : checkN e2 = true
      · have h3 : (if checkN e2 then some e2 else none) = some e := h
        rw [if_pos hc] at h3
        have := Option.some.inj h3
        subst this
        exact beq_iff_eq.mp hc
      · have h3 : (if checkN e2 then some e2 else none) = some e := h
        rw [if_neg hc] at h3
        simp at h3
    | cons a tl =>
      simp at h

theorem decode_prefix_none (e : Engine) (i : Nat) (hi : i < (encode e).length) :
    decode ((encode e).take i) = none := by
  cases hd : decode ((encode e).take i) with
  | none => rfl
  | some e2 =>
    exfalso
    have hp : parseEngine ((encode e).take i) = some (e2, []) :=
      decode_some_parse hd
    have hext := parseEngine_ext _ ((encode e).drop i) _ _ hp
    rw [List.take_append_drop, List.nil_append] at hext
    have hrun := parseEngine_run e []
    rw [List.append_nil] at hrun
    rw [hrun] at hext
    have hpair := Option.some.inj hext
    have hdrop : ((encode e).drop i) = ([] : List Nat) := by
      have := congrArg Prod.snd hpair
      exact this.symm
    have : (encode e).length ≤ i := by
      rw [← List.drop_eq_nil_iff]
      exact hdrop
    omega

theorem decode_nil : decode [] = none := rfl

theorem decode_bad_magic {w : Nat} (hw : w ≠ MAGIC) (s : List Nat) :
    decode (w :: s) = none := by
  unfold decode parseEngine rdBind
  rw [rdWord_cons]
  dsimp only
  rw [if_neg hw]
  rfl

theorem mphf_load_save (e : Engine) (pmem : Mem) (path psize : Nat)
    (fs : FileSys) :
    mphf_load pmem path psize (mphf_save e pmem path psize fs)
      = decode (encode e) := by
  unfold mphf_load mphf_save
  rw [if_pos rfl]

/-! The claims. -/

/-- C1: for every KeySet of N distinct 64-bit keys, after constructing an
engine with `mphf_new` (any thread count >= 1, any gamma > 1.0), applying
`mphf_lookup` to each of the N keys yields N pairwise-distinct integers
that cover exactly the set `[0, N)`. -/
theorem claim1_lookup_bijective_on_keyset
    (n : Nat) (mem : Mem) (ptr t : Nat) (γ : ℚ)
    (hn : 0 < n) (ht : 1 ≤ t) (hγ : 1 < γ)
    (hnd : (readCells mem ptr n).Nodup) :
    ∃ e, mphf_new n mem ptr t γ = some e ∧
      List.Perm ((readCells mem ptr n).map (fun k => mphf_lookup e k))
        (List.range n) := by
  unfold mphf_new
  have hlen : (readCells mem ptr n).length = n := by simp [readCells]
  exact mphfCtor_lookup_perm t γ false false (by omega) hnd hlen

/-- Witness for C1: the spec's own five-key example, gamma 2, one
thread. -/
theorem claim1_witness :
    ∃ e, mphf_new 5 (fun i => (i + 1) * 10) 0 1 2 = some e ∧
      List.Perm ((readCells (fun i => (i + 1) * 10) 0 5).map
        (fun k => mphf_lookup e k)) (List.range 5) :=
  claim1_lookup_bijective_on_keyset 5 (fun i => (i + 1) * 10) 0 1 2
    (by decide) (by decide) (by norm_num) (by decide)

/-- C2: for every constructed engine, `mphf_save` to a path followed by
`mphf_load` from that same path yields an engine whose `mphf_lookup`
results equal the original engine's for every key (in particular every
training key). -/
theorem claim2_save_load_roundtrip
    (n : Nat) (mem : Mem) (ptr t : Nat) (γ : ℚ)
    (pmem : Mem) (ppath psize : Nat) (fs : FileSys)
    (hn : 0 < n) (hnd : (readCells mem ptr n).Nodup) :
    ∀ e, mphf_new n mem ptr t γ = some e →
      ∃ e2, mphf_load pmem ppath psize (mphf_save e pmem ppath psize fs) = some e2
        ∧ ∀ k, mphf_lookup e2 k = mphf_lookup e k := by
  intro e he
  unfold mphf_new at he
  have hlen : (readCells mem ptr n).length = n := by simp [readCells]
  have hen : e.n = n := by
    rw [mphfCtor_eq_some (readCells mem ptr n) t γ false false (by omega)] at he
    exact (congrArg Engine.n (Option.some.inj he)).symm ▸ rfl
  have hinv0 := mphfCtor_invariant (show n ≠ 0 by omega) hnd he
  have hinv : popSum e.levels + e.fallback.length = e.n := by
    rw [hinv0, hlen, hen]
  refine ⟨eStrip e, ?_, ?_⟩
  · rw [mphf_load_save]
    exact decode_encode hinv
  · intro k
    exact lookup_eStrip e k

/-- Witness for C2: a five-key engine saved to a three-byte path on an
empty file system and loaded back. -/
theorem claim2_witness :
    ∃ e2, mphf_load (fun i => i + 65) 0 3
        (mphf_save egEngine (fun i => i + 65) 0 3 (fun _ => none)) = some e2
      ∧ ∀ k, mphf_lookup e2 k = mphf_lookup egEngine k :=
  claim2_save_load_roundtrip 5 egMem 0 1 2
    (fun i => i + 65) 0 3 (fun _ => none) (by decide) (by decide)
    egEngine (by decide)

/-- C3: `mphf_load` fails with a format error on an empty stream or a bad
header, on any strict prefix (truncation) of a valid stream, and it never
returns an engine whose payload size disagrees with the embedded N. -/
theorem claim3_load_rejects_malformed
    (pmem : Mem) (ppath psize : Nat) (fs : FileSys) (s : List Nat)
    (hfs : fs (readCells pmem ppath psize) = some s) :
    ((s = [] ∨ ∃ w s1, s = w :: s1 ∧ w ≠ MAGIC) →
        mphf_load pmem ppath psize fs = none)
    ∧ (∀ (e : Engine) (i : Nat), i < (encode e).length → s = (encode e).take i →
        mphf_load pmem ppath psize fs = none)
    ∧ (∀ e : Engine, mphf_load pmem ppath psize fs = some e →
        popSum e.levels + e.fallback.length = e.n) := by
  have hload : mphf_load pmem ppath psize fs = decode s := by
    unfold mphf_load
    rw [hfs]
  refine ⟨?_, ?_, ?_⟩
  · rintro (rfl | ⟨w, s1, rfl, hw⟩)
    · rw [hload]
      exact decode_nil
    · rw [hload]
      exact decode_bad_magic hw s1
  · intro e i hi hs
    rw [hload, hs]
    exact decode_prefix_none e i hi
  · intro e he
    rw [hload] at he
    exact decode_checkN he

/-- Witness for C3: loading an empty file is a format error. -/
theorem claim3_witness :
    mphf_load (fun i => i) 0 2 (fun _ => some []) = none :=
  (claim3_load_rejects_malformed (fun i => i) 0 2 (fun _ => some []) [] rfl).1
    (Or.inl rfl)

/-- C4: construction (`mphf_new` / `new_mphf`) fails exactly on the
degenerate key count N = 0, signalling the failure to the caller as an
explicit absent result (allocation exhaustion is outside the model); for
every nonzero N it succeeds. -/
theorem claim4_construction_failure_iff_degenerate
    (n : Nat) (mem : Mem) (ptr t : Nat) (γ : ℚ) :
    (mphf_new n mem ptr t γ = none ↔ n = 0)
      ∧ (new_mphf n mem ptr t γ = none ↔ n = 0) := by
  have h1 : ∀ we pr : Bool,
      (mphfCtor n (readCells mem ptr n) t γ we pr = none ↔ n = 0) := by
    intro we pr
    unfold mphfCtor
    by_cases h : n = 0
    · simp [h]
    · simp [h]
  exact ⟨h1 false false, h1 defaultWriteEach defaultProgress⟩

/-- C5: for every constructed engine built from N keys and every 64-bit
key (in the training set or not), `mphf_lookup` is a total pure function:
it always answers with an integer in `[0, N)`, and (in state-passing form)
it neither touches caller memory nor mutates the engine value. -/
theorem claim5_lookup_total_in_range
    (n : Nat) (mem : Mem) (ptr t : Nat) (γ : ℚ)
    (hn : 0 < n) (hnd : (readCells mem ptr n).Nodup) (k : Nat) :
    ∀ e, mphf_new n mem ptr t γ = some e →
      mphf_lookup e k < n
        ∧ ∀ st : Mem, mphf_lookup_st e k st = (mphf_lookup e k, st) := by
  intro e he
  unfold mphf_new at he
  have hlen : (readCells mem ptr n).length = n := by simp [readCells]
  refine ⟨mphfCtor_lookup_lt (show n ≠ 0 by omega) hnd hlen he k, ?_⟩
  intro st
  rfl

/-- Witness for C5: the key 12345 was never presented at construction
time, yet lookup answers below N = 5. -/
theorem claim5_witness :
    mphf_lookup egEngine 12345 < 5 :=
  (claim5_lookup_total_in_range 5 egMem 0 1 2
    (by decide) (by decide) 12345 egEngine (by decide)).1

/-- C6: engines constructed with thread count 1 and with thread count
K > 1 agree on the `mphf_lookup` result of every key of the training set
(the chunked per-thread collision counts merge to the sequential
counts). -/
theorem claim6_thread_count_irrelevant
    (n : Nat) (mem : Mem) (ptr : Nat) (γ : ℚ) (t1 t2 : Nat)
    (ht1 : 1 ≤ t1) (ht2 : 1 ≤ t2) (k : Nat)
    (hk : k ∈ readCells mem ptr n) :
    (mphf_new n mem ptr t1 γ).map (fun e => mphf_lookup e k)
      = (mphf_new n mem ptr t2 γ).map (fun e => mphf_lookup e k) := by
  unfold mphf_new mphfCtor
  rw [buildLevels_thread_eq maxDepth 0 γ t1 t2 (readCells mem ptr n)]

/-- Witness for C6: one thread versus four threads on the five-key
example, looked up at training key 30. -/
theorem claim6_witness :
    (mphf_new 5 (fun i => (i + 1) * 10) 0 1 2).map (fun e => mphf_lookup e 30)
      = (mphf_new 5 (fun i => (i + 1) * 10) 0 4 2).map (fun e => mphf_lookup e 30) :=
  claim6_thread_count_irrelevant 5 (fun i => (i + 1) * 10) 0 2 1 4
    (by decide) (by decide) 30 (by decide)

/-- C7: construction is deterministic — runs fed the same key data, gamma
and thread count produce identical engines (the per-level seeds are a
function of the level index alone) — and on the KeySet
{10, 20, 30, 40, 50} with gamma = 2 and one thread the five lookups are a
permutation of {0, 1, 2, 3, 4}. -/
theorem claim7_deterministic_with_example :
    (∀ (n : Nat) (mem1 mem2 : Mem) (p1 p2 t : Nat) (γ : ℚ),
        readCells mem1 p1 n = readCells mem2 p2 n →
        mphf_new n mem1 p1 t γ = mphf_new n mem2 p2 t γ)
    ∧ (∃ e, mphf_new 5 (fun i => (i + 1) * 10) 0 1 2 = some e ∧
        List.Perm ((readCells (fun i => (i + 1) * 10) 0 5).map
          (fun k => mphf_lookup e k)) (List.range 5)) := by
  constructor
  · intro n mem1 mem2 p1 p2 t γ h
    unfold mphf_new
    rw [h]
  · unfold mphf_new
    exact @mphfCtor_lookup_perm 5 (readCells (fun i => (i + 1) * 10) 0 5) 1 2
      false false (by decide) (by decide) (by decide)

/-- Witness for C7: two runs over distinct memory layouts holding the same
key sequence construct the same engine. -/
theorem claim7_witness :
    mphf_new 5 (fun i => 10 * i + 10) 0 1 2
      = mphf_new 5 (fun i => (i + 1) * 10) 0 1 2 :=
  claim7_deterministic_with_example.1 5 (fun i => 10 * i + 10)
    (fun i => (i + 1) * 10) 0 0 1 2 (by decide)

/-- C8: construction does not touch the caller's key array — the wrapper
copies the `n` cells at `input_range` into engine-owned storage (the
memory store comes back unchanged, the engine depends only on the copied
cells) and lookups on the already-built engine are independent of any
later state of caller memory. -/
theorem claim8_construction_copies_input
    (st : Mem) (n ptr t : Nat) (γ : ℚ) :
    ((mphf_new_st st n ptr t γ).2 = st)
    ∧ (∀ st2 : Mem, (∀ i, i < n → st2 (ptr + i) = st (ptr + i)) →
        (mphf_new_st st2 n ptr t γ).1 = (mphf_new_st st n ptr t γ).1)
    ∧ (∀ e : Engine, (mphf_new_st st n ptr t γ).1 = some e →
        ∀ (k : Nat) (st3 : Mem), mphf_lookup_st e k st3 = (mphf_lookup e k, st3)) := by
  refine ⟨rfl, ?_, ?_⟩
  · intro st2 hag
    show mphf_new n st2 ptr t γ = mphf_new n st ptr t γ
    unfold mphf_new
    have h : readCells st2 ptr n = readCells st ptr n := by
      unfold readCells
      apply List.map_congr_left
      intro i hi
      exact hag i (List.mem_range.mp hi)
    rw [h]
  · intro e _ k st3
    rfl

/-- Witness for C8: mutating cells at and past index 5 — outside the five
copied cells — leaves the constructed engine unchanged. -/
theorem claim8_witness :
    (mphf_new_st (fun i => if i < 5 then (i + 1) * 10 else 999) 5 0 1 2).1
      = (mphf_new_st (fun i => (i + 1) * 10) 5 0 1 2).1 :=
  (claim8_construction_copies_input (fun i => (i + 1) * 10) 5 0 1 2).2.1
    (fun i => if i < 5 then (i + 1) * 10 else 999)
    (fun i hi => by simp [hi])

/-- C9: `mphf_save` and `mphf_load` interpret the filename as exactly the
first `size` bytes at `path` (`std::string cpppath(path, size)`): the path
has exactly `size` bytes, byte `j` of the path is cell `path + j` whatever
its value (a NUL byte within the first `size` bytes is part of the path),
cells beyond the range never matter, and both operations address the file
system at exactly that byte string. -/
theorem claim9_path_exact_bytes (pmem : Mem) (ptr sz : Nat) :
    ((readCells pmem ptr sz).length = sz)
    ∧ (∀ j d : Nat, j < sz → (readCells pmem ptr sz).getD j d = pmem (ptr + j))
    ∧ (∀ pmem2 : Mem, (∀ j, j < sz → pmem2 (ptr + j) = pmem (ptr + j)) →
        readCells pmem2 ptr sz = readCells pmem ptr sz)
    ∧ (∀ (e : Engine) (fs : FileSys) (p : List Nat),
        mphf_save e pmem ptr sz fs p
          = if p = readCells pmem ptr sz then some (encode e) else fs p)
    ∧ (∀ (fs : FileSys) (s : List Nat), fs (readCells pmem ptr sz) = some s →
        mphf_load pmem ptr sz fs = decode s) := by
  refine ⟨by simp [readCells], ?_, ?_, ?_, ?_⟩
  · intro j d hj
    unfold readCells
    rw [List.getD_eq_getElem?_getD]
    rw [List.getElem?_map, List.getElem?_range hj]
    rfl
  · intro pmem2 hag
    unfold readCells
    apply List.map_congr_left
    intro j hj
    exact hag j (List.mem_range.mp hj)
  · intro e fs p
    rfl
  · intro fs s hf
    unfold mphf_load
    rw [hf]

/-- Witness for C9: a three-byte path whose middle byte is NUL keeps that
NUL as byte 1 of the path. -/
theorem claim9_witness :
    (readCells (fun i => if i = 1 then 0 else 65) 0 3).getD 1 7 = 0 :=
  (claim9_path_exact_bytes (fun i => if i = 1 then 0 else 65) 0 3).2.1 1 7
    (by decide)

/-- C10: the two exported constructors are lookup-equivalent — `new_mphf`
(trailing boolean arguments left at the wrapped library's defaults) and
`mphf_new` (passing false, false) agree, key by key, on the lookup results
of the engines they build, and they succeed or fail together. -/
theorem claim10_ctor_flags_lookup_equivalent
    (n : Nat) (mem : Mem) (ptr t : Nat) (γ : ℚ) (k : Nat) :
    (new_mphf n mem ptr t γ).map (fun e => mphf_lookup e k)
      = (mphf_new n mem ptr t γ).map (fun e => mphf_lookup e k) := by
  unfold new_mphf mphf_new mphfCtor
  by_cases h : n = 0
  · simp [h]
  · simp only [h, if_false]
    rfl

end UkhsBoomphf
